import Mathlib

/-!
Verification of the micrograd-rust scalar reverse-mode autograd engine
(`src/lib.rs`).

The Rust library builds a DAG of `Var` nodes: each node has an immutable
`value : f64`, a mutable `grad : Cell<f64>`, a mutable `visited : Cell<bool>`,
optional borrowed references `ch1, ch2` to operand nodes, and a boxed
`Operation` (one of `NoOP`, `AddOP`, `NegOp`, `MulOp`, `PowOp { p }`).

Embedding choices:
* Scalars are modelled as `ℚ`.  Every numeric computation exercised by the
  verified properties (small integer values, `AddOP`/`MulOp`/`NegOp` local
  derivatives, `powf` at integer exponents) is exact in `f64`, so the
  rational model agrees with the IEEE-754 behaviour of the source on them.
* The borrowed-reference graph is modelled as an arena `Graph := List Node`
  in which operand references are indices; Rust's lifetime discipline means
  a node can only reference strictly earlier-constructed nodes, which is the
  well-formedness predicate `wf` below.
* Mutation of the `grad`/`visited` cells becomes functional update of the
  arena.  The recursive traversals `reset_vis` and `_backward` take an
  explicit fuel argument; `Res.fuelOut` is an artifact of the embedding that
  is never produced on well-formed graphs (the fuel passed by `backward` is
  the arena size, which bounds the recursion depth because child indices
  strictly decrease).
* A Rust `panic!` (in the source: `Option::unwrap` on `None`) is modelled as
  `Res.panic`.
-/

namespace Micrograd

/-- Model of `f64::powf` restricted to the exact fragment used by the
library's verified properties: an integer exponent `p` gives `a ^ p.num`
(zpow); non-integer exponents are outside the fragment and return a junk
value. -/
def fpow (a p : ℚ) : ℚ := if p.den = 1 then a ^ p.num else 0

/-- The operation catalog of `src/lib.rs`: `NoOP`, `AddOP`, `NegOp`,
`MulOp`, `PowOp { p }`. -/
inductive Op where
  | NoOP : Op
  | AddOP : Op
  | NegOp : Op
  | MulOp : Op
  | PowOp : ℚ → Op
deriving DecidableEq

/-- `Operation::op`, the forward evaluation of each variant, exactly as in
the five `impl Operation for ...` blocks. -/
def Op.op : Op → ℚ → ℚ → ℚ
  | Op.NoOP, _, _ => 0
  | Op.AddOP, a, b => a + b
  | Op.NegOp, a, _ => -a
  | Op.MulOp, a, b => a * b
  | Op.PowOp p, a, _ => fpow a p

/-- `Operation::grad`, the local derivative with respect to the first
argument, exactly as in the source: `NoOP ↦ 0`, `AddOP ↦ 1`, `NegOp ↦ -1`,
`MulOp ↦ b`, `PowOp ↦ p * a.powf(p - 1)`. -/
def Op.grad : Op → ℚ → ℚ → ℚ
  | Op.NoOP, _, _ => 0
  | Op.AddOP, _, _ => 1
  | Op.NegOp, _, _ => -1
  | Op.MulOp, _, b => b
  | Op.PowOp p, a, _ => p * fpow a (p - 1)

/-- The `Var` struct.  `ch1`/`ch2` are arena indices standing for the
borrowed references of the source; `value`, `ch1`, `ch2` and `operation`
are plain immutable fields in Rust, while `grad` and `visited` sit in
`Cell`s and are the only mutable state. -/
structure Node where
  value : ℚ
  grad : ℚ
  visited : Bool
  ch1 : Option Nat
  ch2 : Option Nat
  operation : Op
deriving DecidableEq

/-- The arena owning all nodes of a computation graph. -/
abbrev Graph := List Node

/-- Read a node's `value` field through an arena index (total, with a junk
default that is never reached through valid references). -/
def valueAt (g : Graph) (i : Nat) : ℚ := (g[i]?.map Node.value).getD 0

/-- Read a node's `grad` cell through an arena index. -/
def gradAt (g : Graph) (i : Nat) : ℚ := (g[i]?.map Node.grad).getD 0

/-- Functionally update the node at index `i` (no-op on an out-of-range
index, which valid references never produce). -/
def updateNode (g : Graph) (i : Nat) (f : Node → Node) : Graph :=
  match g[i]? with
  | none => g
  | some n => g.set i (f n)

/-- `grad.set v` on the node at index `i`. -/
def setGrad (g : Graph) (i : Nat) (q : ℚ) : Graph :=
  updateNode g i (fun n => { n with grad := q })

/-- `visited.set b` on the node at index `i`. -/
def setVis (g : Graph) (i : Nat) (b : Bool) : Graph :=
  updateNode g i (fun n => { n with visited := b })

/-- `new_var`: a leaf with the given value, zero grad, no operands, `NoOP`. -/
def new_var (value : ℚ) : Node :=
  { value := value, grad := 0, visited := false,
    ch1 := none, ch2 := none, operation := Op.NoOP }

/-- `combine`: a binary node whose value is the operation's forward result
on the operand values read at call time, with both operand references
stored. -/
def combine (g : Graph) (x y : Nat) (op : Op) : Node :=
  { value := op.op (valueAt g x) (valueAt g y), grad := 0, visited := false,
    ch1 := some x, ch2 := some y, operation := op }

/-- `Var::add`. -/
def Var.add (g : Graph) (s o : Nat) : Node := combine g s o Op.AddOP

/-- `Var::neg`: a unary node; the source passes `0.0` as the unused second
argument of `NegOp::op` and stores `ch2 = None`. -/
def Var.neg (g : Graph) (s : Nat) : Node :=
  { value := Op.NegOp.op (valueAt g s) 0, grad := 0, visited := false,
    ch1 := some s, ch2 := none, operation := Op.NegOp }

/-- `Var::mul`. -/
def Var.mul (g : Graph) (s o : Nat) : Node := combine g s o Op.MulOp

/-- `Var::pow`: a unary node; the source passes `p` as the unused second
argument of `PowOp::op` and stores `ch2 = None`. -/
def Var.pow (g : Graph) (s : Nat) (p : ℚ) : Node :=
  { value := (Op.PowOp p).op (valueAt g s) p, grad := 0, visited := false,
    ch1 := some s, ch2 := none, operation := Op.PowOp p }

/-- Result of a traversal: normal return, Rust `panic!` (an `unwrap` of
`None`), or fuel exhaustion (an embedding artifact, never hit on
well-formed graphs). -/
inductive Res where
  | ok : Graph → Res
  | panic : Res
  | fuelOut : Res
deriving DecidableEq

/-- Sequencing that propagates `panic`/`fuelOut`, mirroring Rust control
flow where a panic aborts the whole call. -/
def Res.bind : Res → (Graph → Res) → Res
  | Res.ok g, f => f g
  | Res.panic, _ => Res.panic
  | Res.fuelOut, _ => Res.fuelOut

/-- Extract the graph from an `ok` result, with a default otherwise. -/
def Res.getOk : Res → Graph → Graph
  | Res.ok g, _ => g
  | _, d => d

/-- First half of `Var::_backward`'s body: if `ch1` is present, set
`ch1.grad` to `self.grad * operation.grad(ch1.value, ch2.unwrap().value)
+ ch1.grad`.  The source unwraps `ch2` here unconditionally, so a node
with `ch1 = Some _` and `ch2 = None` panics. -/
def pushCh1 (g : Graph) (i : Nat) : Res :=
  match g[i]? with
  | none => Res.panic
  | some n =>
    match n.ch1 with
    | none => Res.ok g
    | some c1 =>
      match n.ch2 with
      | none => Res.panic
      | some c2 =>
        match g[c1]?, g[c2]? with
        | some n1, some n2 =>
            Res.ok (setGrad g c1 (n.grad * n.operation.grad n1.value n2.value + n1.grad))
        | _, _ => Res.panic

/-- Second half of `Var::_backward`'s body: if `ch2` is present, set
`ch2.grad` to `self.grad * operation.grad(ch2.value, ch1.unwrap().value)
+ ch2.grad`; symmetric unwrap of `ch1`. -/
def pushCh2 (g : Graph) (i : Nat) : Res :=
  match g[i]? with
  | none => Res.panic
  | some n =>
    match n.ch2 with
    | none => Res.ok g
    | some c2 =>
      match n.ch1 with
      | none => Res.panic
      | some c1 =>
        match g[c1]?, g[c2]? with
        | some n1, some n2 =>
            Res.ok (setGrad g c2 (n.grad * n.operation.grad n2.value n1.value + n2.grad))
        | _, _ => Res.panic

/-- `Var::_backward`: push into `ch1`'s grad, then into `ch2`'s grad, then
recurse into `ch1`, then into `ch2`.  The `ch1`/`ch2` fields are immutable
in Rust, so they are read once from the entry state; the `grad` cells are
read from the current state inside `pushCh1`/`pushCh2`. -/
def Var._backward (g : Graph) : Nat → Nat → Res
  | 0, _ => Res.fuelOut
  | fuel+1, i =>
    match g[i]? with
    | none => Res.panic
    | some n =>
      Res.bind (pushCh1 g i) (fun gA =>
      Res.bind (pushCh2 gA i) (fun gB =>
      Res.bind (match n.ch1 with
                | none => Res.ok gB
                | some c1 => Var._backward gB fuel c1) (fun gC =>
      match n.ch2 with
      | none => Res.ok gC
      | some c2 => Var._backward gC fuel c2)))

/-- `Var::reset_vis`: set `visited` to `false`, then recurse into the
children that are present (the unwraps here are guarded and cannot
panic). -/
def Var.reset_vis (g : Graph) : Nat → Nat → Res
  | 0, _ => Res.fuelOut
  | fuel+1, i =>
    match g[i]? with
    | none => Res.panic
    | some n =>
      Res.bind (match n.ch1 with
                | none => Res.ok (setVis g i false)
                | some c1 => Var.reset_vis (setVis g i false) fuel c1) (fun g2 =>
      match n.ch2 with
      | none => Res.ok g2
      | some c2 => Var.reset_vis g2 fuel c2)

/-- `Var::backward`: `grad.set(1.0)`, `reset_vis()`, `_backward()`.  The
fuel is the arena size, which bounds the recursion depth on well-formed
graphs. -/
def Var.backward (g : Graph) (i : Nat) : Res :=
  let g1 := setGrad g i 1
  Res.bind (Var.reset_vis g1 g1.length i) (fun g2 => Var._backward g2 g2.length i)

/-- Acyclicity of a child reference: it must point strictly below the
node's own index (Rust's borrow rules force every graph built through the
library into this shape). -/
def chB (o : Option Nat) (i : Nat) : Bool :=
  match o with
  | none => true
  | some j => decide (j < i)

/-- Both operand references of a node point strictly below its index. -/
def nodeOkB (n : Node) (i : Nat) : Bool := chB n.ch1 i && chB n.ch2 i

/-- Well-formed arena: every node references only strictly
earlier-constructed nodes. -/
def wf (g : Graph) : Prop := ∀ i, (h : i < g.length) → nodeOkB (g.get ⟨i, h⟩) i = true

/-- The node at `u` is unary: `ch1` present, `ch2` absent (exactly the
shape produced by `Var::neg` and `Var::pow`). -/
def isUnaryAt (g : Graph) (u : Nat) : Bool :=
  match g[u]? with
  | none => false
  | some n => n.ch1.isSome && n.ch2.isNone

/-- `u` is reachable from `i` along operand references. -/
inductive Reaches (g : Graph) : Nat → Nat → Prop where
  | refl (i : Nat) : Reaches g i i
  | via1 (i j k : Nat) (n : Node) :
      g[i]? = some n → n.ch1 = some j → Reaches g j k → Reaches g i k
  | via2 (i j k : Nat) (n : Node) :
      g[i]? = some n → n.ch2 = some j → Reaches g j k → Reaches g i k

/-- The value of the optional second operand, `0` when absent (matching the
junk second argument the unary constructors pass, which every unary
operation ignores). -/
def chValue (g : Graph) (o : Option Nat) : ℚ :=
  match o with
  | none => 0
  | some k => valueAt g k

/-- Every non-leaf node's stored value is the catalog's forward function
applied to its recorded operands' values. -/
def Consistent (g : Graph) : Prop :=
  ∀ (i : Nat) (n : Node) (j : Nat), g[i]? = some n → n.ch1 = some j →
    n.value = n.operation.op (valueAt g j) (chValue g n.ch2)

instance (g : Graph) : Decidable (wf g) := Nat.decidableBallLT _ _

/-!  Basic arena lemmas. -/

lemma updateNode_length (g : Graph) (i : Nat) (f : Node → Node) :
    (updateNode g i f).length = g.length := by
  unfold updateNode
  cases h : g[i]? <;> simp

lemma updateNode_getElem? (g : Graph) (i : Nat) (f : Node → Node) (j : Nat) :
    (updateNode g i f)[j]? = if i = j then (g[i]?).map f else g[j]? := by
  unfold updateNode
  cases h : g[i]? with
  | none =>
    by_cases hij : i = j
    · subst hij; simp [h]
    · simp [hij]
  | some n =>
    obtain ⟨hi, -⟩ := List.getElem?_eq_some_iff.mp h
    by_cases hij : i = j
    · subst hij; simp [List.getElem?_set_self hi, h]
    · simp [List.getElem?_set_ne hij, hij]

/-- Two arenas with identical immutable data (`value`, `ch1`, `ch2`,
`operation`) at every index; only the mutable `grad`/`visited` cells may
differ. -/
def sameShape (g g' : Graph) : Prop :=
  g'.length = g.length ∧
  ∀ i : Nat, g'[i]?.map Node.value = g[i]?.map Node.value ∧
    g'[i]?.map Node.ch1 = g[i]?.map Node.ch1 ∧
    g'[i]?.map Node.ch2 = g[i]?.map Node.ch2 ∧
    g'[i]?.map Node.operation = g[i]?.map Node.operation

lemma sameShape_refl (g : Graph) : sameShape g g :=
  ⟨rfl, fun _ => ⟨rfl, rfl, rfl, rfl⟩⟩

lemma sameShape_trans {g g' g'' : Graph} (h1 : sameShape g g') (h2 : sameShape g' g'') :
    sameShape g g'' := by
  obtain ⟨hl1, hp1⟩ := h1
  obtain ⟨hl2, hp2⟩ := h2
  refine ⟨hl2.trans hl1, fun i => ?_⟩
  obtain ⟨a1, b1, c1, d1⟩ := hp1 i
  obtain ⟨a2, b2, c2, d2⟩ := hp2 i
  exact ⟨a2.trans a1, b2.trans b1, c2.trans c1, d2.trans d1⟩

lemma sameShape_symm {g g' : Graph} (h : sameShape g g') : sameShape g' g := by
  obtain ⟨hl, hp⟩ := h
  refine ⟨hl.symm, fun i => ?_⟩
  obtain ⟨a, b, c, d⟩ := hp i
  exact ⟨a.symm, b.symm, c.symm, d.symm⟩

lemma updateNode_sameShape (g : Graph) (i : Nat) (f : Node → Node)
    (hv : ∀ n, (f n).value = n.value) (h1 : ∀ n, (f n).ch1 = n.ch1)
    (h2 : ∀ n, (f n).ch2 = n.ch2) (ho : ∀ n, (f n).operation = n.operation) :
    sameShape g (updateNode g i f) := by
  refine ⟨updateNode_length g i f, fun j => ?_⟩
  rw [updateNode_getElem? g i f j]
  by_cases hij : i = j
  · subst hij
    cases g[i]? with
    | none => simp
    | some n => simp [hv, h1, h2, ho]
  · simp [hij]

lemma setGrad_sameShape (g : Graph) (i : Nat) (q : ℚ) : sameShape g (setGrad g i q) :=
  updateNode_sameShape g i _ (fun _ => rfl) (fun _ => rfl) (fun _ => rfl) (fun _ => rfl)

lemma setVis_sameShape (g : Graph) (i : Nat) (b : Bool) : sameShape g (setVis g i b) :=
  updateNode_sameShape g i _ (fun _ => rfl) (fun _ => rfl) (fun _ => rfl) (fun _ => rfl)

lemma setVis_grad (g : Graph) (i : Nat) (b : Bool) (j : Nat) :
    (setVis g i b)[j]?.map Node.grad = g[j]?.map Node.grad := by
  rw [setVis, updateNode_getElem?]
  by_cases hij : i = j
  · subst hij
    cases g[i]? <;> simp
  · simp [hij]

lemma sameShape_get_some {g g' : Graph} (hs : sameShape g g') {i : Nat} {n : Node}
    (h : g[i]? = some n) :
    ∃ m, g'[i]? = some m ∧ m.value = n.value ∧ m.ch1 = n.ch1 ∧
      m.ch2 = n.ch2 ∧ m.operation = n.operation := by
  obtain ⟨-, hp⟩ := hs
  obtain ⟨hv, h1, h2, ho⟩ := hp i
  rw [h] at hv h1 h2 ho
  cases hg : g'[i]? with
  | none => rw [hg] at hv; simp at hv
  | some m =>
    rw [hg] at hv h1 h2 ho
    exact ⟨m, rfl, by simpa using hv, by simpa using h1, by simpa using h2, by simpa using ho⟩

lemma lt_length_of_lookup {g : Graph} {i : Nat} {n : Node} (h : g[i]? = some n) :
    i < g.length :=
  (List.getElem?_eq_some_iff.mp h).1

lemma lookup_of_lt_length {g : Graph} {i : Nat} (h : i < g.length) :
    ∃ n, g[i]? = some n :=
  ⟨_, List.getElem?_eq_getElem h⟩

lemma wf_lookup {g : Graph} (hw : wf g) {i : Nat} {n : Node} (h : g[i]? = some n) :
    nodeOkB n i = true := by
  obtain ⟨hlt, hget⟩ := List.getElem?_eq_some_iff.mp h
  have hb := hw i hlt
  rw [List.get_eq_getElem] at hb
  rwa [hget] at hb

lemma wf_of_lookup {g : Graph} (hw : ∀ i n, g[i]? = some n → nodeOkB n i = true) :
    wf g := by
  intro i h
  have := hw i _ (List.getElem?_eq_getElem h)
  rwa [List.get_eq_getElem]

lemma wf_ch1_lt {g : Graph} (hw : wf g) {i : Nat} {n : Node} {j : Nat}
    (h : g[i]? = some n) (h1 : n.ch1 = some j) : j < i := by
  have hb := wf_lookup hw h
  simp [nodeOkB, chB, h1, Bool.and_eq_true] at hb
  exact hb.1

lemma wf_ch2_lt {g : Graph} (hw : wf g) {i : Nat} {n : Node} {j : Nat}
    (h : g[i]? = some n) (h2 : n.ch2 = some j) : j < i := by
  have hb := wf_lookup hw h
  simp [nodeOkB, chB, h2, Bool.and_eq_true] at hb
  exact hb.2

lemma wf_sameShape {g g' : Graph} (hs : sameShape g g') (hw : wf g) : wf g' := by
  apply wf_of_lookup
  intro i n h
  obtain ⟨m, hm, -, h1, h2, -⟩ := sameShape_get_some (sameShape_symm hs) h
  have hb := wf_lookup hw hm
  rw [nodeOkB, h1, h2] at hb
  rwa [nodeOkB]

lemma reaches_sameShape {g g' : Graph} (hs : sameShape g g') {i u : Nat}
    (hr : Reaches g i u) : Reaches g' i u := by
  induction hr with
  | refl i => exact Reaches.refl i
  | via1 i j k n hn h1 _ ih =>
    obtain ⟨m, hm, -, hc1, -, -⟩ := sameShape_get_some hs hn
    exact Reaches.via1 i j k m hm (hc1.trans h1) ih
  | via2 i j k n hn h2 _ ih =>
    obtain ⟨m, hm, -, -, hc2, -⟩ := sameShape_get_some hs hn
    exact Reaches.via2 i j k m hm (hc2.trans h2) ih

lemma isUnary_sameShape {g g' : Graph} (hs : sameShape g g') {u : Nat}
    (hu : isUnaryAt g u = true) : isUnaryAt g' u = true := by
  unfold isUnaryAt at hu ⊢
  cases hg : g[u]? with
  | none => rw [hg] at hu; exact absurd hu (by simp)
  | some n =>
    rw [hg] at hu
    have hu' : (n.ch1.isSome && n.ch2.isNone) = true := hu
    obtain ⟨m, hm, -, h1, h2, -⟩ := sameShape_get_some hs hg
    rw [hm]
    show (m.ch1.isSome && m.ch2.isNone) = true
    rw [h1, h2]
    exact hu' 

lemma valueAt_sameShape {g g' : Graph} (hs : sameShape g g') (j : Nat) :
    valueAt g' j = valueAt g j := by
  unfold valueAt
  rw [(hs.2 j).1]

lemma chValue_sameShape {g g' : Graph} (hs : sameShape g g') (o : Option Nat) :
    chValue g' o = chValue g o := by
  cases o with
  | none => rfl
  | some k => exact valueAt_sameShape hs k

lemma consistent_sameShape {g g' : Graph} (hs : sameShape g g') (hc : Consistent g) :
    Consistent g' := by
  intro i n j hlook hch1
  obtain ⟨m, hm, hv, h1, h2, ho⟩ := sameShape_get_some (sameShape_symm hs) hlook
  have := hc i m j hm (h1.trans hch1)
  rw [valueAt_sameShape hs, chValue_sameShape hs, ← hv, ← ho, ← h2]
  exact this

/-!  Characterization of the two grad-push halves of `_backward`. -/

lemma pushCh1_leaf {g : Graph} {i : Nat} {n : Node}
    (h : g[i]? = some n) (h1 : n.ch1 = none) : pushCh1 g i = Res.ok g := by
  simp [pushCh1, h, h1]

lemma pushCh1_unary {g : Graph} {i : Nat} {n : Node} {c1 : Nat}
    (h : g[i]? = some n) (h1 : n.ch1 = some c1) (h2 : n.ch2 = none) :
    pushCh1 g i = Res.panic := by
  simp [pushCh1, h, h1, h2]

lemma pushCh1_bin {g : Graph} {i : Nat} {n : Node} {c1 c2 : Nat} {n1 n2 : Node}
    (h : g[i]? = some n) (h1 : n.ch1 = some c1) (h2 : n.ch2 = some c2)
    (hc1 : g[c1]? = some n1) (hc2 : g[c2]? = some n2) :
    pushCh1 g i = Res.ok (setGrad g c1 (n.grad * n.operation.grad n1.value n2.value + n1.grad)) := by
  simp [pushCh1, h, h1, h2, hc1, hc2]

lemma pushCh2_skip {g : Graph} {i : Nat} {n : Node}
    (h : g[i]? = some n) (h2 : n.ch2 = none) : pushCh2 g i = Res.ok g := by
  simp [pushCh2, h, h2]

lemma pushCh2_orphan {g : Graph} {i : Nat} {n : Node} {c2 : Nat}
    (h : g[i]? = some n) (h2 : n.ch2 = some c2) (h1 : n.ch1 = none) :
    pushCh2 g i = Res.panic := by
  simp [pushCh2, h, h1, h2]

lemma pushCh2_bin {g : Graph} {i : Nat} {n : Node} {c1 c2 : Nat} {n1 n2 : Node}
    (h : g[i]? = some n) (h1 : n.ch1 = some c1) (h2 : n.ch2 = some c2)
    (hc1 : g[c1]? = some n1) (hc2 : g[c2]? = some n2) :
    pushCh2 g i = Res.ok (setGrad g c2 (n.grad * n.operation.grad n2.value n1.value + n2.grad)) := by
  simp [pushCh2, h, h1, h2, hc1, hc2]

lemma pushCh1_cases (g : Graph) (i : Nat) :
    pushCh1 g i = Res.panic ∨ ∃ g', pushCh1 g i = Res.ok g' ∧ sameShape g g' := by
  cases h : g[i]? with
  | none => left; simp [pushCh1, h]
  | some n =>
    cases h1 : n.ch1 with
    | none => right; exact ⟨g, pushCh1_leaf h h1, sameShape_refl g⟩
    | some c1 =>
      cases h2 : n.ch2 with
      | none => left; exact pushCh1_unary h h1 h2
      | some c2 =>
        cases hc1 : g[c1]? with
        | none => left; simp [pushCh1, h, h1, h2, hc1]
        | some n1 =>
          cases hc2 : g[c2]? with
          | none => left; simp [pushCh1, h, h1, h2, hc1, hc2]
          | some n2 =>
            right
            exact ⟨_, pushCh1_bin h h1 h2 hc1 hc2, setGrad_sameShape g c1 _⟩

lemma pushCh2_cases (g : Graph) (i : Nat) :
    pushCh2 g i = Res.panic ∨ ∃ g', pushCh2 g i = Res.ok g' ∧ sameShape g g' := by
  cases h : g[i]? with
  | none => left; simp [pushCh2, h]
  | some n =>
    cases h2 : n.ch2 with
    | none => right; exact ⟨g, pushCh2_skip h h2, sameShape_refl g⟩
    | some c2 =>
      cases h1 : n.ch1 with
      | none => left; exact pushCh2_orphan h h2 h1
      | some c1 =>
        cases hc1 : g[c1]? with
        | none => left; simp [pushCh2, h, h1, h2, hc1]
        | some n1 =>
          cases hc2 : g[c2]? with
          | none => left; simp [pushCh2, h, h1, h2, hc1, hc2]
          | some n2 =>
            right
            exact ⟨_, pushCh2_bin h h1 h2 hc1 hc2, setGrad_sameShape g c2 _⟩

/-!  Unfolding equations for the fueled traversals. -/

lemma Var._backward_succ (g : Graph) (fuel i : Nat) :
    Var._backward g (fuel+1) i =
      match g[i]? with
      | none => Res.panic
      | some n =>
        Res.bind (pushCh1 g i) (fun gA =>
        Res.bind (pushCh2 gA i) (fun gB =>
        Res.bind (match n.ch1 with
                  | none => Res.ok gB
                  | some c1 => Var._backward gB fuel c1) (fun gC =>
        match n.ch2 with
        | none => Res.ok gC
        | some c2 => Var._backward gC fuel c2))) := rfl

lemma Var.reset_vis_succ (g : Graph) (fuel i : Nat) :
    Var.reset_vis g (fuel+1) i =
      match g[i]? with
      | none => Res.panic
      | some n =>
        Res.bind (match n.ch1 with
                  | none => Res.ok (setVis g i false)
                  | some c1 => Var.reset_vis (setVis g i false) fuel c1) (fun g2 =>
        match n.ch2 with
        | none => Res.ok g2
        | some c2 => Var.reset_vis g2 fuel c2) := rfl

lemma Var.backward_def (g : Graph) (i : Nat) :
    Var.backward g i =
      Res.bind (Var.reset_vis (setGrad g i 1) (setGrad g i 1).length i)
        (fun g2 => Var._backward g2 g2.length i) := rfl

/-!  Structure preservation of the traversals. -/

lemma back_shape (fuel : Nat) :
    ∀ (g : Graph) (i : Nat) (g' : Graph),
      Var._backward g fuel i = Res.ok g' → sameShape g g' := by
  induction fuel with
  | zero => intro g i g' h; exact Res.noConfusion h
  | succ fuel ih =>
    intro g i g' h
    rw [Var._backward_succ] at h
    cases hn : g[i]? with
    | none => simp [hn] at h
    | some n =>
      simp only [hn] at h
      rcases pushCh1_cases g i with hp | ⟨gA, hok, hsA⟩
      · simp [hp, Res.bind] at h
      rcases pushCh2_cases gA i with hp | ⟨gB, hok2, hsB⟩
      · simp [hok, hp, Res.bind] at h
      simp only [hok, hok2, Res.bind] at h
      have hsAB : sameShape g gB := sameShape_trans hsA hsB
      cases hch1 : n.ch1 with
      | none =>
        simp only [hch1, Res.bind] at h
        cases hch2 : n.ch2 with
        | none => simp only [hch2] at h; cases h; exact hsAB
        | some c2 =>
          simp only [hch2] at h
          exact sameShape_trans hsAB (ih gB c2 g' h)
      | some c1 =>
        simp only [hch1] at h
        cases hr1 : Var._backward gB fuel c1 with
        | ok gC =>
          simp only [hr1, Res.bind] at h
          have hsC : sameShape g gC := sameShape_trans hsAB (ih gB c1 gC hr1)
          cases hch2 : n.ch2 with
          | none => simp only [hch2] at h; cases h; exact hsC
          | some c2 =>
            simp only [hch2] at h
            exact sameShape_trans hsC (ih gC c2 g' h)
        | panic => simp [hr1, Res.bind] at h
        | fuelOut => simp [hr1, Res.bind] at h

lemma reset_shape (fuel : Nat) :
    ∀ (g : Graph) (i : Nat) (g' : Graph),
      Var.reset_vis g fuel i = Res.ok g' → sameShape g g' := by
  induction fuel with
  | zero => intro g i g' h; exact Res.noConfusion h
  | succ fuel ih =>
    intro g i g' h
    rw [Var.reset_vis_succ] at h
    cases hn : g[i]? with
    | none => simp [hn] at h
    | some n =>
      simp only [hn] at h
      have hsV : sameShape g (setVis g i false) := setVis_sameShape g i false
      cases hch1 : n.ch1 with
      | none =>
        simp only [hch1, Res.bind] at h
        cases hch2 : n.ch2 with
        | none => simp only [hch2] at h; cases h; exact hsV
        | some c2 =>
          simp only [hch2] at h
          exact sameShape_trans hsV (ih _ c2 g' h)
      | some c1 =>
        simp only [hch1] at h
        cases hr1 : Var.reset_vis (setVis g i false) fuel c1 with
        | ok g2 =>
          simp only [hr1, Res.bind] at h
          have hs2 : sameShape g g2 := sameShape_trans hsV (ih _ c1 g2 hr1)
          cases hch2 : n.ch2 with
          | none => simp only [hch2] at h; cases h; exact hs2
          | some c2 =>
            simp only [hch2] at h
            exact sameShape_trans hs2 (ih g2 c2 g' h)
        | panic => simp [hr1, Res.bind] at h
        | fuelOut => simp [hr1, Res.bind] at h

lemma reset_grads (fuel : Nat) :
    ∀ (g : Graph) (i : Nat) (g' : Graph),
      Var.reset_vis g fuel i = Res.ok g' →
      ∀ j : Nat, g'[j]?.map Node.grad = g[j]?.map Node.grad := by
  induction fuel with
  | zero => intro g i g' h; exact Res.noConfusion h
  | succ fuel ih =>
    intro g i g' h
    rw [Var.reset_vis_succ] at h
    cases hn : g[i]? with
    | none => simp [hn] at h
    | some n =>
      simp only [hn] at h
      cases hch1 : n.ch1 with
      | none =>
        simp only [hch1, Res.bind] at h
        cases hch2 : n.ch2 with
        | none =>
          simp only [hch2] at h; cases h
          exact fun j => setVis_grad g i false j
        | some c2 =>
          simp only [hch2] at h
          intro j
          exact (ih _ c2 g' h j).trans (setVis_grad g i false j)
      | some c1 =>
        simp only [hch1] at h
        cases hr1 : Var.reset_vis (setVis g i false) fuel c1 with
        | ok g2 =>
          simp only [hr1, Res.bind] at h
          have hg2 : ∀ j : Nat, g2[j]?.map Node.grad = g[j]?.map Node.grad :=
            fun j => (ih _ c1 g2 hr1 j).trans (setVis_grad g i false j)
          cases hch2 : n.ch2 with
          | none => simp only [hch2] at h; cases h; exact hg2
          | some c2 =>
            simp only [hch2] at h
            intro j
            exact (ih g2 c2 g' h j).trans (hg2 j)
        | panic => simp [hr1, Res.bind] at h
        | fuelOut => simp [hr1, Res.bind] at h

/-!  Termination and panic behaviour of the traversals on well-formed
arenas. -/

lemma reset_ok (fuel : Nat) :
    ∀ (g : Graph) (i : Nat), wf g → i < g.length → i < fuel →
      ∃ g', Var.reset_vis g fuel i = Res.ok g' := by
  induction fuel with
  | zero => intro g i _ _ hif; exact absurd hif (Nat.not_lt_zero i)
  | succ fuel ih =>
    intro g i hw hil hif
    obtain ⟨n, hn⟩ := lookup_of_lt_length hil
    have hfuel : ∀ c, c < i → c < fuel :=
      fun c hc => Nat.lt_of_lt_of_le hc (Nat.lt_succ_iff.mp hif)
    rw [Var.reset_vis_succ]
    have hsV : sameShape g (setVis g i false) := setVis_sameShape g i false
    have hwV : wf (setVis g i false) := wf_sameShape hsV hw
    cases hch1 : n.ch1 with
    | none =>
      cases hch2 : n.ch2 with
      | none =>
        refine ⟨setVis g i false, ?_⟩
        simp only [hn, hch1, hch2, Res.bind]
      | some c2 =>
        have hc2i : c2 < i := wf_ch2_lt hw hn hch2
        obtain ⟨g2, hg2⟩ := ih (setVis g i false) c2 hwV
          (by rw [hsV.1]; exact hc2i.trans hil) (hfuel c2 hc2i)
        refine ⟨g2, ?_⟩
        simp only [hn, hch1, hch2, Res.bind, hg2]
    | some c1 =>
      have hc1i : c1 < i := wf_ch1_lt hw hn hch1
      obtain ⟨g2, hg2⟩ := ih (setVis g i false) c1 hwV
        (by rw [hsV.1]; exact hc1i.trans hil) (hfuel c1 hc1i)
      have hs2 : sameShape g g2 := sameShape_trans hsV (reset_shape fuel _ c1 g2 hg2)
      cases hch2 : n.ch2 with
      | none =>
        refine ⟨g2, ?_⟩
        simp only [hn, hch1, hch2, Res.bind, hg2]
      | some c2 =>
        have hc2i : c2 < i := wf_ch2_lt hw hn hch2
        obtain ⟨g3, hg3⟩ := ih g2 c2 (wf_sameShape hs2 hw)
          (by rw [hs2.1]; exact hc2i.trans hil) (hfuel c2 hc2i)
        refine ⟨g3, ?_⟩
        simp only [hn, hch1, hch2, Res.bind, hg2, hg3]

lemma _backward_bin_eq {g : Graph} {i c1 c2 : Nat} {n : Node} (fuel : Nat)
    (hw : wf g) (hil : i < g.length)
    (hn : g[i]? = some n) (hch1 : n.ch1 = some c1) (hch2 : n.ch2 = some c2) :
    ∃ gB, Var._backward g (fuel+1) i =
        Res.bind (Var._backward gB fuel c1) (fun gC => Var._backward gC fuel c2) ∧
      sameShape g gB := by
  have hc1l : c1 < g.length := (wf_ch1_lt hw hn hch1).trans hil
  have hc2l : c2 < g.length := (wf_ch2_lt hw hn hch2).trans hil
  obtain ⟨n1, hn1⟩ := lookup_of_lt_length hc1l
  obtain ⟨n2, hn2⟩ := lookup_of_lt_length hc2l
  have hpush1 := pushCh1_bin hn hch1 hch2 hn1 hn2
  set gA := setGrad g c1 (n.grad * n.operation.grad n1.value n2.value + n1.grad) with hgA
  have hsA : sameShape g gA := setGrad_sameShape g c1 _
  obtain ⟨nA, hnA, hAv, hA1, hA2, hAo⟩ := sameShape_get_some hsA hn
  obtain ⟨nA1, hnA1⟩ := lookup_of_lt_length (show c1 < gA.length by rw [hsA.1]; exact hc1l)
  obtain ⟨nA2, hnA2⟩ := lookup_of_lt_length (show c2 < gA.length by rw [hsA.1]; exact hc2l)
  have hpush2 := pushCh2_bin hnA (hA1.trans hch1) (hA2.trans hch2) hnA1 hnA2
  refine ⟨setGrad gA c2 (nA.grad * nA.operation.grad nA2.value nA1.value + nA2.grad), ?_, ?_⟩
  · rw [Var._backward_succ]
    simp only [hn, hpush1, Res.bind, hpush2, hch1, hch2]
  · exact sameShape_trans hsA (setGrad_sameShape gA c2 _)

lemma backstep (fuel : Nat) :
    ∀ (g : Graph) (i : Nat), wf g → i < g.length → i < fuel →
      Var._backward g fuel i = Res.panic ∨
      ∃ g', Var._backward g fuel i = Res.ok g' ∧ sameShape g g' := by
  induction fuel with
  | zero => intro g i _ _ hif; exact absurd hif (Nat.not_lt_zero i)
  | succ fuel ih =>
    intro g i hw hil hif
    obtain ⟨n, hn⟩ := lookup_of_lt_length hil
    have hfuel : ∀ c, c < i → c < fuel :=
      fun c hc => Nat.lt_of_lt_of_le hc (Nat.lt_succ_iff.mp hif)
    cases hch1 : n.ch1 with
    | none =>
      cases hch2 : n.ch2 with
      | none =>
        right
        refine ⟨g, ?_, sameShape_refl g⟩
        rw [Var._backward_succ]
        simp only [hn, pushCh1_leaf hn hch1, Res.bind, pushCh2_skip hn hch2, hch1, hch2]
      | some c2 =>
        left
        rw [Var._backward_succ]
        simp only [hn, pushCh1_leaf hn hch1, Res.bind, pushCh2_orphan hn hch2 hch1]
    | some c1 =>
      cases hch2 : n.ch2 with
      | none =>
        left
        rw [Var._backward_succ]
        simp only [hn, pushCh1_unary hn hch1 hch2, Res.bind]
      | some c2 =>
        have hc1i : c1 < i := wf_ch1_lt hw hn hch1
        have hc2i : c2 < i := wf_ch2_lt hw hn hch2
        obtain ⟨gB, heq, hsB⟩ := _backward_bin_eq fuel hw hil hn hch1 hch2
        have hwB : wf gB := wf_sameShape hsB hw
        rw [heq]
        rcases ih gB c1 hwB (by rw [hsB.1]; exact hc1i.trans hil) (hfuel c1 hc1i) with
          hr1 | ⟨gC, hr1, hsC⟩
        · left; simp only [hr1, Res.bind]
        · have hsGC : sameShape g gC := sameShape_trans hsB hsC
          have hwC : wf gC := wf_sameShape hsGC hw
          rcases ih gC c2 hwC (by rw [hsGC.1]; exact hc2i.trans hil) (hfuel c2 hc2i) with
            hr2 | ⟨gD, hr2, hsD⟩
          · left; simp only [hr1, Res.bind, hr2]
          · right
            refine ⟨gD, ?_, sameShape_trans hsGC hsD⟩
            simp only [hr1, Res.bind, hr2]

lemma reaches_inv {g : Graph} {i u : Nat} (h : Reaches g i u) :
    i = u ∨
    (∃ n j, g[i]? = some n ∧ n.ch1 = some j ∧ Reaches g j u) ∨
    (∃ n j, g[i]? = some n ∧ n.ch2 = some j ∧ Reaches g j u) := by
  cases h with
  | refl i => exact Or.inl rfl
  | via1 i j k n hn h1 hr => exact Or.inr (Or.inl ⟨n, j, hn, h1, hr⟩)
  | via2 i j k n hn h2 hr => exact Or.inr (Or.inr ⟨n, j, hn, h2, hr⟩)

lemma back_panic (fuel : Nat) :
    ∀ (g : Graph) (i u : Nat), wf g → i < g.length → i < fuel →
      Reaches g i u → isUnaryAt g u = true →
      Var._backward g fuel i = Res.panic := by
  induction fuel with
  | zero => intro g i u _ _ hif; exact absurd hif (Nat.not_lt_zero i)
  | succ fuel ih =>
    intro g i u hw hil hif hre hu
    obtain ⟨n, hn⟩ := lookup_of_lt_length hil
    have hfuel : ∀ c, c < i → c < fuel :=
      fun c hc => Nat.lt_of_lt_of_le hc (Nat.lt_succ_iff.mp hif)
    cases hch1 : n.ch1 with
    | none =>
      cases hch2 : n.ch2 with
      | none =>
        exfalso
        rcases reaches_inv hre with heq | ⟨n₀, j, hn₀, h1, hr'⟩ | ⟨n₀, j, hn₀, h2, hr'⟩
        · subst heq; simp [isUnaryAt, hn, hch1] at hu
        · rw [hn] at hn₀; cases hn₀
          rw [hch1] at h1; exact Option.noConfusion h1
        · rw [hn] at hn₀; cases hn₀
          rw [hch2] at h2; exact Option.noConfusion h2
      | some c2 =>
        rw [Var._backward_succ]
        simp only [hn, pushCh1_leaf hn hch1, Res.bind, pushCh2_orphan hn hch2 hch1]
    | some c1 =>
      cases hch2 : n.ch2 with
      | none =>
        rw [Var._backward_succ]
        simp only [hn, pushCh1_unary hn hch1 hch2, Res.bind]
      | some c2 =>
        have hc1i : c1 < i := wf_ch1_lt hw hn hch1
        have hc2i : c2 < i := wf_ch2_lt hw hn hch2
        obtain ⟨gB, heq, hsB⟩ := _backward_bin_eq fuel hw hil hn hch1 hch2
        have hwB : wf gB := wf_sameShape hsB hw
        have hc1lB : c1 < gB.length := by rw [hsB.1]; exact hc1i.trans hil
        have hc2lB : c2 < gB.length := by rw [hsB.1]; exact hc2i.trans hil
        rw [heq]
        rcases reaches_inv hre with heq2 | ⟨n₀, j, hn₀, h1, hr'⟩ | ⟨n₀, j, hn₀, h2, hr'⟩
        · subst heq2; simp [isUnaryAt, hn, hch2] at hu
        · rw [hn] at hn₀; cases hn₀
          rw [hch1] at h1; cases h1
          have hp1 : Var._backward gB fuel c1 = Res.panic :=
            ih gB c1 u hwB hc1lB (hfuel c1 hc1i)
              (reaches_sameShape hsB hr') (isUnary_sameShape hsB hu)
          simp only [hp1, Res.bind]
        · rw [hn] at hn₀; cases hn₀
          rw [hch2] at h2; cases h2
          rcases backstep fuel gB c1 hwB hc1lB (hfuel c1 hc1i) with hr1 | ⟨gC, hr1, hsC⟩
          · simp only [hr1, Res.bind]
          · have hsGC : sameShape g gC := sameShape_trans hsB hsC
            have hp2 : Var._backward gC fuel c2 = Res.panic :=
              ih gC c2 u (wf_sameShape hsGC hw) (by rw [hsGC.1]; exact hc2i.trans hil)
                (hfuel c2 hc2i) (reaches_sameShape hsGC hr') (isUnary_sameShape hsGC hu)
            simp only [hr1, Res.bind, hp2]

/-!  Remaining helper lemmas for the claim theorems. -/

lemma updateNode_updateNode (g : Graph) (i : Nat) (f fp : Node → Node) :
    updateNode (updateNode g i f) i fp = updateNode g i (fun n => fp (f n)) := by
  apply List.ext_getElem?
  intro j
  simp only [updateNode_getElem?]
  by_cases hij : i = j
  · subst hij
    simp only [eq_self_iff_true, if_true]
    cases g[i]? <;> rfl
  · simp [hij]

lemma setGrad_setGrad (g : Graph) (i : Nat) (c q : ℚ) :
    setGrad (setGrad g i c) i q = setGrad g i q := by
  unfold setGrad
  rw [updateNode_updateNode]

/-- Whether a traversal returned normally. -/
def Res.isOk : Res → Bool
  | Res.ok _ => true
  | _ => false

/-!  The spec's reference backward pass, used to contrast the code's
recursive descent with the mandated topological-order propagation. -/

/-- Modelled from the spec (§4.3, steps 1–3): one propagation step of the
topological protocol — node `i` pushes `grad * localDerivative` across each
of its parent→operand edges exactly once, reading its own grad at
processing time (after all of its parents have pushed into it). -/
def specPush (g : Graph) (i : Nat) : Graph :=
  match g[i]? with
  | none => g
  | some n =>
    match n.ch1 with
    | none => g
    | some c1 =>
      let g1 := setGrad g c1 (gradAt g c1 + gradAt g i * n.operation.grad (valueAt g c1) (chValue g n.ch2))
      match n.ch2 with
      | none => g1
      | some c2 =>
          setGrad g1 c2 (gradAt g1 c2 + gradAt g1 i * n.operation.grad (valueAt g1 c2) (valueAt g1 c1))

/-- Modelled from the spec (§4.3): the whole mandated backward protocol —
reset every grad to 0, seed the root with 1, then process nodes in a
topological order of the reachable subgraph (descending arena index, which
is topological because operands have strictly smaller indices; nodes not
reachable from the root carry grad 0 throughout and push nothing). -/
def specBackward (g : Graph) (root : Nat) : Graph :=
  ((List.range (root + 1)).reverse).foldl specPush
    (setGrad (g.map (fun n => { n with grad := 0 })) root 1)

/-!  Concrete graphs used by the claim theorems, built exclusively through
the library's factory operations. -/

/-- `z = new_var(1.0)` — leaf of the deep-diamond example. -/
def diamond0 : Graph := [new_var 1]

/-- `u = z + z` appended. -/
def diamond1 : Graph := diamond0 ++ [Var.add diamond0 0 0]

/-- `t = u + u` appended: `t = 4z`, so `dt/dz = 4`. -/
def diamondG : Graph := diamond1 ++ [Var.add diamond1 1 1]

/-- `y = new_var(2.0)`. -/
def sharedY : Graph := [new_var 2]

/-- `s = y + y` appended. -/
def sharedG : Graph := sharedY ++ [Var.add sharedY 0 0]

/-- Leaves `a = 4.0`, `x = 3.0`, `b = 10.0`. -/
def prodG0 : Graph := [new_var 4, new_var 3, new_var 10]

/-- `r = a * x` appended at index 3. -/
def prodG1 : Graph := prodG0 ++ [Var.mul prodG0 0 1]

/-- `t = r + b` appended at index 4. -/
def prodG : Graph := prodG1 ++ [Var.add prodG1 3 2]

/-- `a = new_var(5.0)`. -/
def negG0 : Graph := [new_var 5]

/-- `f = a.neg()` appended. -/
def negG : Graph := negG0 ++ [Var.neg negG0 0]

/-- `a = new_var(2.0)`. -/
def powG0 : Graph := [new_var 2]

/-- `f = a.pow(3.0)` appended. -/
def powG : Graph := powG0 ++ [Var.pow powG0 0 3]

/-- `w = new_var(6.0)`. -/
def unaryReachG0 : Graph := [new_var 6]

/-- `m = w.neg()` appended at index 1. -/
def unaryReachG1 : Graph := unaryReachG0 ++ [Var.neg unaryReachG0 0]

/-- `t = m + w` appended at index 2: a binary root whose propagation
reaches the unary node 1. -/
def unaryReachG : Graph := unaryReachG1 ++ [Var.add unaryReachG1 1 0]

/-- `a = new_var(7.0)`. -/
def c9G0 : Graph := [new_var 7]

/-- `f = a.neg()` appended: a two-node acyclic graph. -/
def c9G : Graph := c9G0 ++ [Var.neg c9G0 0]

/-- Leaves `x = 3.0`, `b = 10.0`. -/
def accG0 : Graph := [new_var 3, new_var 10]

/-- `t = x + b` appended at index 2, for the double-backward accumulation
demonstration. -/
def accG : Graph := accG0 ++ [Var.add accG0 0 1]

/-!  Claim theorems. -/

unseal Rat.add Rat.mul Rat.sub in
/-- C1: the spec requires each parent→operand edge to contribute exactly
once, with a shared node's incoming contributions fully summed before its
own operands are updated.  The code's recursive descent violates this: on
`z = leaf(1)`, `u = z + z`, `t = u + u`, the code's backward leaves
`z.grad = 8` (node `u` re-propagates once per parent visit, so each `u→z`
edge fires twice), while the spec's topological protocol (`specBackward`)
yields the correct `z.grad = 4`. -/
theorem backward_double_counts_shared_edges :
    wf diamondG ∧
    (Var.backward diamondG 2).isOk = true ∧
    gradAt (Res.getOk (Var.backward diamondG 2) []) 0 = 8 ∧
    gradAt (specBackward diamondG 2) 0 = 4 ∧
    gradAt (Res.getOk (Var.backward diamondG 2) []) 0 ≠ gradAt (specBackward diamondG 2) 0 := by
  decide

unseal Rat.add Rat.mul Rat.sub in
/-- C2: with `y = leaf(2.0)` and `s = add(y, y)`, backward on `s` returns
normally and leaves `y.grad = 2.0` (both edges contribute), not `1.0`. -/
theorem diamond_shared_grad_is_two :
    (Var.backward sharedG 1).isOk = true ∧
    gradAt (Res.getOk (Var.backward sharedG 1) []) 0 = 2 ∧
    gradAt (Res.getOk (Var.backward sharedG 1) []) 0 ≠ 1 := by
  decide

unseal Rat.add Rat.mul Rat.sub in
/-- C3: with `a = 4.0`, `x = 3.0`, `b = 10.0`, `r = mul(a, x)`,
`t = add(r, b)`, backward on `t` returns normally and leaves
`x.grad = 4.0`, `a.grad = 3.0`, `b.grad = 1.0`. -/
theorem product_rule_grads :
    (Var.backward prodG 4).isOk = true ∧
    gradAt (Res.getOk (Var.backward prodG 4) []) 1 = 4 ∧
    gradAt (Res.getOk (Var.backward prodG 4) []) 0 = 3 ∧
    gradAt (Res.getOk (Var.backward prodG 4) []) 2 = 1 := by
  decide

unseal Rat.add Rat.mul Rat.sub in
/-- C4: the claim says backward on `negate(a)` terminates normally with
`a.grad = -1.0`; on the code it panics instead — `_backward` unwraps the
absent `ch2` while computing `ch1`'s local derivative.  Evaluation at the
failing input `a = leaf(5.0)`, `f = neg(a)`. -/
theorem neg_backward_panics :
    valueAt negG 1 = -5 ∧ Var.backward negG 1 = Res.panic := by
  decide

unseal Rat.add Rat.mul Rat.sub in
/-- C5: the claim says backward on `f = power(a, 3)` with `a = 2.0`
terminates normally with `a.grad = 12.0`; the forward value is correctly
`8.0`, but backward panics on the same absent-`ch2` unwrap as every unary
node. -/
theorem pow_backward_panics :
    valueAt powG 1 = 8 ∧ Var.backward powG 1 = Res.panic := by
  decide

/-- C6: on any well-formed graph, invoking backward on a unary node
(`ch1` present, `ch2` absent — the shape produced by `neg`/`pow`), or on
any root whose propagation reaches such a node, panics: the propagation
step unwraps the absent second operand while computing the first operand's
local derivative. -/
theorem backward_panics_when_reaching_unary (g : Graph) (root u : Nat)
    (hw : wf g) (hroot : root < g.length) (hre : Reaches g root u)
    (hu : isUnaryAt g u = true) : Var.backward g root = Res.panic := by
  rw [Var.backward_def]
  have hs1 : sameShape g (setGrad g root 1) := setGrad_sameShape g root 1
  have hw1 : wf (setGrad g root 1) := wf_sameShape hs1 hw
  have hl1 : (setGrad g root 1).length = g.length := hs1.1
  obtain ⟨g2, hg2⟩ := reset_ok (setGrad g root 1).length (setGrad g root 1) root hw1
    (by rw [hl1]; exact hroot) (by rw [hl1]; exact hroot)
  rw [hg2]
  simp only [Res.bind]
  have hs2 : sameShape g g2 := sameShape_trans hs1 (reset_shape _ _ _ _ hg2)
  have hl2 : g2.length = g.length := hs2.1
  exact back_panic g2.length g2 root u (wf_sameShape hs2 hw)
    (by rw [hl2]; exact hroot) (by rw [hl2]; exact hroot)
    (reaches_sameShape hs2 hre) (isUnary_sameShape hs2 hu)

/-- C6 witness: on `w = leaf(6)`, `m = neg(w)`, `t = add(m, w)`, the
binary root 2 reaches the unary node 1 and backward panics. -/
theorem backward_panics_when_reaching_unary_witness :
    wf unaryReachG ∧ isUnaryAt unaryReachG 1 = true ∧
    Var.backward unaryReachG 2 = Res.panic :=
  ⟨by decide, by decide,
    backward_panics_when_reaching_unary unaryReachG 2 1 (by decide) (by decide)
      (Reaches.via1 2 1 1 (Var.add unaryReachG1 1 0) rfl rfl (Reaches.refl 1))
      (by decide)⟩

/-- C7: every factory call returns a node whose `value` is the catalog's
forward function applied to the operand values read at call time (for
`leaf` the fixed given value), whose `grad` is 0, and whose operand
references are exactly the argument nodes passed in. -/
theorem factory_postconditions (g : Graph) (x y : Nat) (v p : ℚ)
    (hx : x < g.length) (hy : y < g.length) :
    ((new_var v).value = v ∧ (new_var v).grad = 0 ∧
      (new_var v).ch1 = none ∧ (new_var v).ch2 = none) ∧
    ((Var.add g x y).value = valueAt g x + valueAt g y ∧ (Var.add g x y).grad = 0 ∧
      (Var.add g x y).ch1 = some x ∧ (Var.add g x y).ch2 = some y) ∧
    ((Var.mul g x y).value = valueAt g x * valueAt g y ∧ (Var.mul g x y).grad = 0 ∧
      (Var.mul g x y).ch1 = some x ∧ (Var.mul g x y).ch2 = some y) ∧
    ((Var.neg g x).value = -valueAt g x ∧ (Var.neg g x).grad = 0 ∧
      (Var.neg g x).ch1 = some x ∧ (Var.neg g x).ch2 = none) ∧
    ((Var.pow g x p).value = fpow (valueAt g x) p ∧ (Var.pow g x p).grad = 0 ∧
      (Var.pow g x p).ch1 = some x ∧ (Var.pow g x p).ch2 = none) :=
  ⟨⟨rfl, rfl, rfl, rfl⟩, ⟨rfl, rfl, rfl, rfl⟩, ⟨rfl, rfl, rfl, rfl⟩,
    ⟨rfl, rfl, rfl, rfl⟩, ⟨rfl, rfl, rfl, rfl⟩⟩

/-- C7 witness: instantiated on the two-leaf arena `[leaf 2, leaf 3]`. -/
theorem factory_postconditions_witness :
    (Var.add [new_var 2, new_var 3] 0 1).value =
      valueAt [new_var 2, new_var 3] 0 + valueAt [new_var 2, new_var 3] 1 :=
  (factory_postconditions [new_var 2, new_var 3] 0 1 7 3 (by decide) (by decide)).2.1.1

/-- C8: a backward call that returns normally leaves every node's `value`
(and hence the forward-evaluation consistency of the whole graph) exactly
as it was: only `grad` and `visited` cells are mutated. -/
theorem backward_preserves_values (g : Graph) (root : Nat) (g' : Graph)
    (h : Var.backward g root = Res.ok g') :
    (∀ j : Nat, g'[j]?.map Node.value = g[j]?.map Node.value) ∧
    (Consistent g → Consistent g') := by
  rw [Var.backward_def] at h
  cases hrv : Var.reset_vis (setGrad g root 1) (setGrad g root 1).length root with
  | ok g2 =>
    rw [hrv] at h
    simp only [Res.bind] at h
    have hs : sameShape g g' :=
      sameShape_trans (setGrad_sameShape g root 1)
        (sameShape_trans (reset_shape _ _ _ _ hrv) (back_shape _ _ _ _ h))
    exact ⟨fun j => (hs.2 j).1, consistent_sameShape hs⟩
  | panic => rw [hrv] at h; exact Res.noConfusion h
  | fuelOut => rw [hrv] at h; exact Res.noConfusion h

unseal Rat.add Rat.mul Rat.sub in
/-- C8 witness: backward on the single leaf `[leaf 5]` returns the graph
with only the grad changed, and the value at index 0 is untouched. -/
theorem backward_preserves_values_witness :
    (setGrad [new_var 5] 0 1)[0]?.map Node.value =
      ([new_var 5] : Graph)[0]?.map Node.value :=
  (backward_preserves_values [new_var 5] 0 (setGrad [new_var 5] 0 1) (by decide)).1 0

unseal Rat.add Rat.mul Rat.sub in
/-- C9: the claim says a backward call on any acyclic graph runs to
completion and returns; `c9G` (`a = leaf(7)`, `f = neg(a)`) is acyclic by
construction, yet backward panics at the unwrap of the absent second
operand instead of returning. -/
theorem acyclic_neg_graph_backward_panics :
    wf c9G ∧ Var.backward c9G 1 = Res.panic := by
  decide

unseal Rat.add Rat.mul Rat.sub in
/-- C10: `backward` overwrites the root's grad to exactly 1.0 regardless
of its prior value (prior-grad irrelevance and the seeded value), the
visited-reset sub-pass never changes any grad, and a second backward call
on the same graph accumulates on top of the grads left by the first
(concretely on `t = x + b`: `x.grad` goes 1 after one pass, 2 after
two). -/
theorem backward_seed_overwrite_and_grad_frame :
    (∀ (g : Graph) (root : Nat) (c : ℚ),
        Var.backward (setGrad g root c) root = Var.backward g root) ∧
    (∀ (g : Graph) (root : Nat), root < g.length →
        gradAt (setGrad g root 1) root = 1) ∧
    (∀ (fuel : Nat) (g : Graph) (i : Nat) (g' : Graph),
        Var.reset_vis g fuel i = Res.ok g' →
        ∀ j : Nat, g'[j]?.map Node.grad = g[j]?.map Node.grad) ∧
    (gradAt (Res.getOk (Var.backward accG 2) []) 0 = 1 ∧
      gradAt (Res.getOk (Var.backward (Res.getOk (Var.backward accG 2) []) 2) []) 0 = 2 ∧
      gradAt (Res.getOk (Var.backward (Res.getOk (Var.backward accG 2) []) 2) []) 1 = 2) := by
  refine ⟨?_, ?_, ?_, ?_⟩
  · intro g root c
    rw [Var.backward_def, Var.backward_def, setGrad_setGrad]
  · intro g root hr
    obtain ⟨n, hn⟩ := lookup_of_lt_length hr
    unfold gradAt setGrad
    rw [updateNode_getElem?]
    simp [hn]
  · exact fun fuel => reset_grads fuel
  · decide

unseal Rat.add Rat.mul Rat.sub in
/-- C10 witness: the general components instantiated on the concrete
graph `accG` (prior root grad 42 is irrelevant; the seed leaves grad 1;
a completed visited-reset leaves the grad map untouched). -/
theorem backward_seed_overwrite_and_grad_frame_witness :
    Var.backward (setGrad accG 2 42) 2 = Var.backward accG 2 ∧
    gradAt (setGrad accG 2 1) 2 = 1 ∧
    accG[1]?.map Node.grad = accG[1]?.map Node.grad :=
  ⟨backward_seed_overwrite_and_grad_frame.1 accG 2 42,
    backward_seed_overwrite_and_grad_frame.2.1 accG 2 (by decide),
    (backward_seed_overwrite_and_grad_frame.2.2.1 3 accG 2 accG (by decide)) 1⟩

end Micrograd
